import Mathlib

/-!
Verification of the DeFRCN gradient-memory subsystem (GPM builder and
MEGA-II dual-gradient reconciliation) against its natural-language
specification.  The Python sources are shallowly embedded below:

* tensors are lists of rationals (a column) or lists of columns (a matrix);
  rational arithmetic stands for the exact values of the float computations,
  except where IEEE special values matter, in which case an explicit
  IEEE-style value type is used;
* `torch.linalg.svd` is an external numeric routine, so it is passed to the
  embedded functions as an oracle argument `svd : Mat -> Mat × List ℚ`
  returning the left singular columns U and the singular values S;
* Python dictionaries keyed by layer name become association lists with
  insertion-order semantics, and Python exceptions become `Except String`.
-/

/-! ## Basic vector and matrix operations (torch tensor fragments) -/

/-- A column vector of rationals. -/
abbrev Vec := List ℚ

/-- A matrix, represented as its list of columns (each of equal length in
well-formed states). -/
abbrev Mat := List Vec

/-- Pointwise sum of two vectors, as in elementwise tensor addition. -/
def addVec (v w : Vec) : Vec := List.zipWith (· + ·) v w

/-- Pointwise difference of two vectors. -/
def subVec (v w : Vec) : Vec := List.zipWith (· - ·) v w

/-- Scalar multiple of a vector. -/
def smulVec (a : ℚ) (v : Vec) : Vec := v.map (fun x => a * x)

/-- Dot product, as in `(x * y).sum()`. -/
def dotVec (v w : Vec) : ℚ := (List.zipWith (· * ·) v w).sum

/-- The all-zero vector of a given length. -/
def zeroVec (n : ℕ) : Vec := List.replicate n 0

/-- Sum of a list of vectors of common length `n`. -/
def sumVecs (n : ℕ) (vs : List Vec) : Vec := vs.foldr addVec (zeroVec n)

/-! ## MemoryTrainer.get_gradient / update_gradient (src/MemoryTrainer.py) -/

/-- One model parameter: its `requires_grad` flag and its gradient slot
`p.grad`, flattened to a list of entries.  A parameter and its gradient
always have the same element count, so `p.grad.length` plays the role of
`p.numel()`. -/
structure Param where
  requiresGrad : Bool
  grad : Vec
deriving DecidableEq, Repr

/-- Embeds `MemoryTrainer.get_gradient`: concatenate `p.grad.view(-1)` over
`model.parameters()` for the parameters with `requires_grad` set, in model
parameter order. -/
def getGradient : List Param → Vec
  | [] => []
  | p :: ps => if p.requiresGrad then p.grad ++ getGradient ps else getGradient ps

/-- Embeds `MemoryTrainer.update_gradient`: walk the parameters in order and,
for each one with `requires_grad` set, copy the next `p.numel()` entries of
`new_grad` into its gradient slot, advancing the running index by
`p.numel()`; parameters without `requires_grad` are passed over. -/
def updateGradient : List Param → Vec → List Param
  | [], _ => []
  | p :: ps, v =>
    if p.requiresGrad then
      { requiresGrad := p.requiresGrad, grad := v.take p.grad.length } ::
        updateGradient ps (v.drop p.grad.length)
    else
      p :: updateGradient ps v

/-- Total element count of the trainable parameters: the number of entries
`get_gradient` produces and `update_gradient` consumes. -/
def trainSize (model : List Param) : ℕ :=
  ((model.filter (fun p => p.requiresGrad)).map (fun p => p.grad.length)).sum

theorem trainSize_cons (p : Param) (ps : List Param) :
    trainSize (p :: ps) =
      (if p.requiresGrad then p.grad.length else 0) + trainSize ps := by
  by_cases h : p.requiresGrad <;> simp [trainSize, List.filter_cons, h]

theorem getGradient_length (model : List Param) :
    (getGradient model).length = trainSize model := by
  induction model with
  | nil => simp [getGradient, trainSize]
  | cons p ps ih =>
    by_cases h : p.requiresGrad <;> simp [getGradient, h, trainSize_cons, ih]

/-- The round trip of claim C4, by induction on the parameter list. -/
theorem roundTrip_aux (model : List Param) :
    ∀ v : Vec, v.length = trainSize model →
      getGradient (updateGradient model v) = v := by
  induction model with
  | nil =>
    intro v hv
    simp [trainSize] at hv
    simp [updateGradient, getGradient, hv]
  | cons p ps ih =>
    intro v hv
    rw [trainSize_cons] at hv
    by_cases h : p.requiresGrad
    · simp only [h, if_true] at hv
      have hlen : (v.drop p.grad.length).length = trainSize ps := by
        simp; omega
      simp only [updateGradient, h, if_pos, getGradient]
      rw [ih _ hlen, List.take_append_drop]
    · rw [if_neg (by simp [h])] at hv
      simp only [updateGradient, h, getGradient, Bool.false_eq_true, if_false]
      exact ih v (by omega)

theorem updateGradient_shapes (model : List Param) :
    ∀ v : Vec, v.length = trainSize model →
      ((updateGradient model v).map (fun p => p.grad.length) =
          model.map (fun p => p.grad.length) ∧
        (updateGradient model v).map Param.requiresGrad =
          model.map Param.requiresGrad) := by
  induction model with
  | nil => intro v hv; simp [updateGradient]
  | cons p ps ih =>
    intro v hv
    rw [trainSize_cons] at hv
    by_cases h : p.requiresGrad
    · simp only [h, if_true] at hv
      have hlen : (v.drop p.grad.length).length = trainSize ps := by
        simp; omega
      obtain ⟨ih1, ih2⟩ := ih _ hlen
      simp only [updateGradient, h, if_true, List.map_cons, ih1, ih2]
      constructor
      · rw [List.length_take]; congr 1; omega
      · simp [h]
    · simp only [h, Bool.false_eq_true, if_false] at hv
      obtain ⟨ih1, ih2⟩ := ih v (by omega)
      simp [updateGradient, h, ih1, ih2]

theorem updateGradient_frame (model : List Param) :
    ∀ (v : Vec) (i : ℕ), (model[i]?.map Param.requiresGrad = some false) →
      (updateGradient model v)[i]? = model[i]? := by
  induction model with
  | nil => intro v i h; simp [updateGradient]
  | cons p ps ih =>
    intro v i h
    by_cases hp : p.requiresGrad
    · cases i with
      | zero => simp [hp] at h
      | succ j =>
        simp only [updateGradient, hp, if_true, List.getElem?_cons_succ] at *
        exact ih _ j h
    · cases i with
      | zero => simp [updateGradient, hp]
      | succ j =>
        simp only [updateGradient, hp, Bool.false_eq_true, if_false,
          List.getElem?_cons_succ] at *
        exact ih v j h

theorem updateGradient_consumes (model : List Param) :
    ∀ v : Vec, updateGradient model v = updateGradient model (v.take (trainSize model)) := by
  induction model with
  | nil => intro v; simp [updateGradient]
  | cons p ps ih =>
    intro v
    rw [trainSize_cons]
    by_cases h : p.requiresGrad
    · simp only [h, if_true, updateGradient]
      congr 1
      · congr 1
        rw [List.take_take]
        congr 1
        omega
      · rw [ih (v.drop p.grad.length), List.drop_take]
        congr 2
        omega
    · simp only [h, Bool.false_eq_true, if_false, updateGradient, Nat.zero_add]
      exact congrArg (List.cons p) (ih v)

theorem getGradient_filter (model : List Param) :
    getGradient model =
      (model.filter (fun p => p.requiresGrad)).flatMap (fun p => p.grad) := by
  induction model with
  | nil => simp [getGradient]
  | cons p ps ih =>
    by_cases h : p.requiresGrad <;> simp [getGradient, h, List.filter_cons, ih]

/-- C4: for every parameter list and every flat vector whose length equals
the sum of the trainable parameters' element counts, scattering the vector
with `update_gradient` and re-flattening with `get_gradient` yields exactly
the vector back, and every parameter keeps its element count and its
`requires_grad` flag (so each trainable parameter received precisely its
contiguous slice, reshaped to its own size, in the fixed parameter order). -/
theorem claim_C4 (model : List Param) (v : Vec) (hv : v.length = trainSize model) :
    getGradient (updateGradient model v) = v ∧
      (updateGradient model v).map (fun p => p.grad.length) =
        model.map (fun p => p.grad.length) ∧
      (updateGradient model v).map Param.requiresGrad =
        model.map Param.requiresGrad :=
  ⟨roundTrip_aux model v hv, updateGradient_shapes model v hv⟩

theorem claim_C4_witness :
    ([(3 : ℚ), 4, 5] : Vec).length =
        trainSize [Param.mk true [0, 0], Param.mk false [9], Param.mk true [0]] ∧
      (getGradient (updateGradient
            [Param.mk true [0, 0], Param.mk false [9], Param.mk true [0]]
            [(3 : ℚ), 4, 5]) = [(3 : ℚ), 4, 5] ∧
        (updateGradient [Param.mk true [0, 0], Param.mk false [9], Param.mk true [0]]
              [(3 : ℚ), 4, 5]).map (fun p => p.grad.length) =
          [Param.mk true [0, 0], Param.mk false [9], Param.mk true [0]].map
            (fun p => p.grad.length) ∧
        (updateGradient [Param.mk true [0, 0], Param.mk false [9], Param.mk true [0]]
              [(3 : ℚ), 4, 5]).map Param.requiresGrad =
          [Param.mk true [0, 0], Param.mk false [9], Param.mk true [0]].map
            Param.requiresGrad) :=
  ⟨by decide,
    claim_C4 [Param.mk true [0, 0], Param.mk false [9], Param.mk true [0]]
      [(3 : ℚ), 4, 5] (by decide)⟩

/-- C10: gradient flattening and write-back operate only on trainable
parameters: `get_gradient` concatenates exactly the gradients of the
parameters with `requires_grad` set, in model parameter order;
`update_gradient` leaves the slot of every parameter with `requires_grad`
unset completely untouched; and `update_gradient` consumes exactly the sum
of the trainable parameters' element counts from the input vector (its
result only depends on that prefix of the vector). -/
theorem claim_C10 (model : List Param) (v : Vec) :
    getGradient model =
        (model.filter (fun p => p.requiresGrad)).flatMap (fun p => p.grad) ∧
      (∀ i : ℕ, model[i]?.map Param.requiresGrad = some false →
        (updateGradient model v)[i]? = model[i]?) ∧
      updateGradient model v = updateGradient model (v.take (trainSize model)) :=
  ⟨getGradient_filter model, updateGradient_frame model v,
    updateGradient_consumes model v⟩

theorem claim_C10_witness :
    ([Param.mk true [0], Param.mk false [7]] : List Param)[1]?.map
        Param.requiresGrad = some false ∧
      (updateGradient [Param.mk true [0], Param.mk false [7]]
          [(2 : ℚ), 8, 8])[1]? = ([Param.mk true [0], Param.mk false [7]] : List Param)[1]? :=
  ⟨by decide,
    (claim_C10 [Param.mk true [0], Param.mk false [7]] [(2 : ℚ), 8, 8]).2.1 1 (by decide)⟩

/-! ## MEGA2Trainer.step (src/trainers/MEGA2Trainer.py)

The step's effect on the parameter gradient slots.  The two backward passes
are external to this unit: the first one leaves the current-task gradients
in the slots (that is the `model` argument below), and
`optimizer.zero_grad()` followed by the memory backward pass overwrites the
trainable slots with the memory-task gradients (`backwardWrite` below).
The combination scalars `a` and `b` are computed in the source from
`cos(theta)` and `cos(angle_tilda - theta)` through external trigonometric
routines, so they are abstracted as rational inputs here; they are used
only on the non-skip branch. -/

/-- Effect of `optimizer.zero_grad()` followed by a backward pass: every
parameter with `requires_grad` set gets the next gradient tensor of the
supplied per-parameter list written into its slot; other slots are left as
they are. -/
def backwardWrite : List Param → List Vec → List Param
  | [], _ => []
  | p :: ps, gs =>
    if p.requiresGrad then
      { requiresGrad := p.requiresGrad, grad := gs.headD [] } :: backwardWrite ps gs.tail
    else
      p :: backwardWrite ps gs

/-- The Gram determinant of the step: `deno = tt * rr - tr * tr` with
`tr = (current * memory).sum()`, `tt = (current * current).sum()`,
`rr = (memory * memory).sum()`. -/
def megaDeno (cur mem : Vec) : ℚ :=
  dotVec cur cur * dotVec mem mem - dotVec cur mem * dotVec cur mem

/-- The fixed sensitivity floor `1e-10` of the step. -/
def sensitivity : ℚ := 1 / 10000000000

/-- The combined gradient `a * flat_task_grads + b * flat_ref_grads` of
`compute_g_tilda`, with the trig-derived scalars supplied as inputs. -/
def combineGrads (a b : ℚ) (cur mem : Vec) : Vec :=
  addVec (smulVec a cur) (smulVec b mem)

/-- Embeds the gradient-slot effect of `MEGA2Trainer.step`: capture the
current-task flat gradient, overwrite the slots with the memory-task
gradients and capture their flat form, then, only when the Gram determinant
reaches the sensitivity floor, write the combined gradient back with
`update_gradient`; otherwise the slots are left exactly as the memory
backward pass wrote them. -/
def megaStepGrads (a b : ℚ) (model : List Param) (memGrads : List Vec) : List Param :=
  let currentFlat := getGradient model
  let model1 := backwardWrite model memGrads
  let memFlat := getGradient model1
  if sensitivity ≤ megaDeno currentFlat memFlat then
    updateGradient model1 (combineGrads a b currentFlat memFlat)
  else
    model1

/-- C1 as amended: on the skip branch (Gram determinant strictly below the
1e-10 sensitivity floor, which covers parallel gradients and the zero-norm
degenerate case) the step performs no gradient write-back at all, so every
parameter's gradient slot keeps the value written by the memory-task
backward pass — not the original current-task gradient. -/
theorem claim_C1 (a b : ℚ) (model : List Param) (memGrads : List Vec)
    (h : megaDeno (getGradient model) (getGradient (backwardWrite model memGrads)) <
      sensitivity) :
    megaStepGrads a b model memGrads = backwardWrite model memGrads := by
  simp only [megaStepGrads]
  rw [if_neg (not_le.mpr h)]

theorem claim_C1_witness :
    megaDeno (getGradient [Param.mk true [1]])
        (getGradient (backwardWrite [Param.mk true [1]] [[(2 : ℚ)]])) < sensitivity ∧
      megaStepGrads 0 0 [Param.mk true [1]] [[(2 : ℚ)]] =
        backwardWrite [Param.mk true [1]] [[(2 : ℚ)]] :=
  ⟨by norm_num [megaDeno, getGradient, backwardWrite, dotVec, sensitivity],
    claim_C1 0 0 [Param.mk true [1]] [[(2 : ℚ)]]
      (by norm_num [megaDeno, getGradient, backwardWrite, dotVec, sensitivity])⟩

/-- C1 counterexample to the claim as stated: a one-dimensional gradient
pair (current `[1]`, memory `[2]`) always has Gram determinant `0`, below
the sensitivity floor, so the step skips the combination — yet after the
step the trainable parameter's gradient slot holds `[2]`, the memory-task
gradient, not the original current-task gradient `[1]`. -/
theorem claim_C1_cex :
    megaDeno (getGradient [Param.mk true [1]])
        (getGradient (backwardWrite [Param.mk true [1]] [[(2 : ℚ)]])) < sensitivity ∧
      (megaStepGrads 0 0 [Param.mk true [1]] [[(2 : ℚ)]]).map Param.grad ≠
        ([Param.mk true [1]] : List Param).map Param.grad := by
  constructor
  · norm_num [megaDeno, getGradient, backwardWrite, dotVec, sensitivity]
  · norm_num [megaStepGrads, megaDeno, getGradient, backwardWrite, dotVec, sensitivity]

/-! ## IEEE-754 special values for the unguarded ratio (C6)

The step computes `self.ratio = memory_loss / loss` and the angle-refinement
update on float tensors, where a zero denominator produces an infinity or a
NaN rather than an exception.  `FV` models a float value as either a finite
(exact) number or one of the IEEE special values, with the IEEE propagation
rules for the operations the step uses.  Signed zero is not tracked; it is
irrelevant to the computations below. -/

inductive FV where
  | num : ℚ → FV
  | pinf : FV
  | ninf : FV
  | nan : FV
deriving DecidableEq, Repr

/-- IEEE addition. -/
def FV.add : FV → FV → FV
  | FV.nan, _ => FV.nan
  | _, FV.nan => FV.nan
  | FV.pinf, FV.ninf => FV.nan
  | FV.ninf, FV.pinf => FV.nan
  | FV.pinf, _ => FV.pinf
  | _, FV.pinf => FV.pinf
  | FV.ninf, _ => FV.ninf
  | _, FV.ninf => FV.ninf
  | FV.num a, FV.num b => FV.num (a + b)

/-- IEEE negation. -/
def FV.neg : FV → FV
  | FV.nan => FV.nan
  | FV.pinf => FV.ninf
  | FV.ninf => FV.pinf
  | FV.num a => FV.num (-a)

/-- IEEE multiplication; `0 * inf` is NaN. -/
def FV.mul : FV → FV → FV
  | FV.nan, _ => FV.nan
  | _, FV.nan => FV.nan
  | FV.pinf, FV.pinf => FV.pinf
  | FV.pinf, FV.ninf => FV.ninf
  | FV.ninf, FV.pinf => FV.ninf
  | FV.ninf, FV.ninf => FV.pinf
  | FV.pinf, FV.num b => if b = 0 then FV.nan else if 0 < b then FV.pinf else FV.ninf
  | FV.num a, FV.pinf => if a = 0 then FV.nan else if 0 < a then FV.pinf else FV.ninf
  | FV.ninf, FV.num b => if b = 0 then FV.nan else if 0 < b then FV.ninf else FV.pinf
  | FV.num a, FV.ninf => if a = 0 then FV.nan else if 0 < a then FV.ninf else FV.pinf
  | FV.num a, FV.num b => FV.num (a * b)

/-- IEEE division; a nonzero finite number divided by zero is a signed
infinity, `0 / 0` is NaN, a finite number divided by an infinity is zero. -/
def FV.div : FV → FV → FV
  | FV.nan, _ => FV.nan
  | _, FV.nan => FV.nan
  | FV.pinf, FV.pinf => FV.nan
  | FV.pinf, FV.ninf => FV.nan
  | FV.ninf, FV.pinf => FV.nan
  | FV.ninf, FV.ninf => FV.nan
  | FV.pinf, FV.num b => if 0 ≤ b then FV.pinf else FV.ninf
  | FV.ninf, FV.num b => if 0 ≤ b then FV.ninf else FV.pinf
  | FV.num _, FV.pinf => FV.num 0
  | FV.num _, FV.ninf => FV.num 0
  | FV.num a, FV.num b =>
    if b = 0 then (if a = 0 then FV.nan else if 0 < a then FV.pinf else FV.ninf)
    else FV.num (a / b)

/-- `torch.clamp` with finite bounds; NaN propagates (as in torch). -/
def FV.clamp (x : FV) (lo hi : ℚ) : FV :=
  match x with
  | FV.nan => FV.nan
  | FV.pinf => FV.num hi
  | FV.ninf => FV.num lo
  | FV.num a => FV.num (max lo (min hi a))

/-- The exact value of the float constant `0.5 * math.pi` used as the clamp
upper bound. -/
def piHalfFloat : ℚ := 884279719003555 / 562949953421312

/-- Embeds `self.ratio = memory_loss / loss`, exactly as computed — with no
guard on the denominator. -/
def megaRatio (memoryLoss loss : FV) : FV := FV.div memoryLoss loss

/-- Embeds one angle-refinement iteration
`theta = clamp(theta + (1/(1+ratio)) * (-sin(theta) + ratio * sin(angle_tilda - theta)), 0, pi/2)`.
The two sine values are computed by external libm routines, so they are
supplied as inputs. -/
def thetaRefine (ratioV theta sinTheta sinDiff : FV) : FV :=
  FV.clamp
    (theta.add (((FV.num 1).div ((FV.num 1).add ratioV)).mul
      ((sinTheta.neg).add (ratioV.mul sinDiff))))
    0 piHalfFloat

/-- C6 as amended: the code computes `ratio = memory_loss / current_loss`
with no guard, so a zero current loss (with positive memory loss) makes the
ratio `+inf`, and then every angle-refinement iteration whose
`sin(angle_tilda - theta)` value is a nonzero finite float produces a NaN
candidate angle (the increment is `0 * inf`), not a well-defined finite
angle. -/
theorem claim_C6 (m theta sinTheta sinDiff : ℚ) (hm : 0 < m) (hsd : sinDiff ≠ 0) :
    megaRatio (FV.num m) (FV.num 0) = FV.pinf ∧
      thetaRefine FV.pinf (FV.num theta) (FV.num sinTheta) (FV.num sinDiff) = FV.nan := by
  constructor
  · simp [megaRatio, FV.div, hm.ne', hm]
  · rcases lt_trichotomy sinDiff 0 with h | h | h
    · simp [thetaRefine, FV.div, FV.add, FV.mul, FV.neg, FV.clamp, hsd, h, not_lt.mpr h.le]
    · exact absurd h hsd
    · simp [thetaRefine, FV.div, FV.add, FV.mul, FV.neg, FV.clamp, hsd, h]

theorem claim_C6_witness :
    (0 : ℚ) < 1 ∧ ((1 : ℚ) / 4) ≠ 0 ∧
      (megaRatio (FV.num 1) (FV.num 0) = FV.pinf ∧
        thetaRefine FV.pinf (FV.num (1 / 2)) (FV.num (1 / 3)) (FV.num (1 / 4)) = FV.nan) :=
  ⟨by norm_num, by norm_num, claim_C6 1 (1 / 2) (1 / 3) (1 / 4) (by norm_num) (by norm_num)⟩

/-- C6 counterexample to the claim as stated: with `current_loss = 0` and
`memory_loss = 1` the ratio evaluates to `+inf` (there is no guard), and an
angle-refinement iteration at finite angle and sine values produces a NaN
candidate angle rather than a well-defined finite one. -/
theorem claim_C6_cex :
    thetaRefine (megaRatio (FV.num 1) (FV.num 0)) (FV.num (1 / 2)) (FV.num (1 / 3))
        (FV.num (1 / 4)) = FV.nan := by
  norm_num [megaRatio, thetaRefine, FV.div, FV.add, FV.mul, FV.neg, FV.clamp]

/-! ## GPM subspace update (update_GPM in src/GPM.py)

`torch.linalg.svd(activation, full_matrices=False)` is an external numeric
routine; the embedded functions receive it as an oracle
`svd : Mat → Mat × List ℚ` giving the left singular columns `U` and the
singular values `S`. -/

/-- Total energy `(S ** 2).sum()`. -/
def sumSq (S : List ℚ) : ℚ := (S.map (fun s => s * s)).sum

/-- The ratio list `(S ** 2) / sval_total` against a given total. -/
def svalRatios (S : List ℚ) (total : ℚ) : List ℚ := S.map (fun s => s * s / total)

/-- Running partial sums, as `torch.cumsum(…, dim=0)`. -/
def runningSumsFrom (a : ℚ) : List ℚ → List ℚ
  | [] => []
  | x :: xs => (a + x) :: runningSumsFrom (a + x) xs

/-- The cumulative-sum list of a list of rationals. -/
def runningSums (L : List ℚ) : List ℚ := runningSumsFrom 0 L

/-- The retained count of the first-task branch:
`r = torch.sum(torch.cumsum(sval_ratio, dim=0) < threshold[layer_name])`. -/
def retainCount (S : List ℚ) (t : ℚ) : ℕ :=
  (runningSums (svalRatios S (sumSq S))).countP (fun q => decide (q < t))

/-- The first-task (empty feature dictionary) per-layer update: SVD of the
representation matrix, then keep the first `r` columns of `U`. -/
def firstLayerUpdate (svd : Mat → Mat × List ℚ) (t : ℚ) (activation : Mat) : Mat :=
  ((svd activation).1).take (retainCount (svd activation).2 t)

/-- Projection of one column onto the orthogonal complement of the stored
basis: column `v` of
`activation - features @ features.T @ activation` equals
`v - Σ_j (b_j ⬝ v) • b_j` over the basis columns `b_j`. -/
def projectOut (basis : Mat) (v : Vec) : Vec :=
  subVec v (sumVecs v.length (basis.map (fun b => smulVec (dotVec b v) b)))

/-- Number of rows of a column-list matrix (torch `shape[0]`). -/
def numRows (M : Mat) : ℕ := (M.headD []).length

/-- The greedy loop of the populated branch: starting from the already
explained energy, add residual ratios in order while strictly below the
threshold, counting the added directions; stop at the first failure. -/
def greedyCount : List ℚ → ℚ → ℚ → ℕ
  | [], _, _ => 0
  | x :: xs, acc, t => if acc < t then greedyCount xs (acc + x) t + 1 else 0

/-- Truncation of the stacked basis:
`if Ui.shape[1] > Ui.shape[0]: features = Ui[:, 0:Ui.shape[0]]`. -/
def truncCols (Ui : Mat) : Mat :=
  if numRows Ui < Ui.length then Ui.take (numRows Ui) else Ui

/-- The retained residual-direction count of the populated branch: with
`sval_total` from the SVD of the raw activation and `sval_hat` from the SVD
of the projected residual, run the greedy loop on
`sval_ratio = S**2 / sval_total` starting from
`accumulated_sval = (sval_total - sval_hat) / sval_total`. -/
def popR (svd : Mat → Mat × List ℚ) (t : ℚ) (basis activation : Mat) : ℕ :=
  greedyCount
    (svalRatios (svd (activation.map (projectOut basis))).2 (sumSq (svd activation).2))
    ((sumSq (svd activation).2 - sumSq (svd (activation.map (projectOut basis))).2) /
      sumSq (svd activation).2)
    t

/-- The populated-branch per-layer update: if no residual direction is
added the basis is left unchanged (the `continue`); otherwise the first `r`
residual columns of `U` are stacked onto the basis and the result truncated
to at most `shape[0]` columns. -/
def populatedLayerUpdate (svd : Mat → Mat × List ℚ) (t : ℚ) (basis activation : Mat) : Mat :=
  if popR svd t basis activation = 0 then basis
  else truncCols (basis ++ ((svd (activation.map (projectOut basis))).1).take
    (popR svd t basis activation))

/-- A feature / representation-matrix dictionary keyed by layer name, with
Python dict insertion-order semantics. -/
abbrev LayerDict := List (String × Mat)

/-- Dictionary lookup (`features[layer_name]`), `none` standing for a
KeyError. -/
def lookupLayer (d : LayerDict) (l : String) : Option Mat :=
  (d.find? (fun p => p.1 == l)).map (fun p => p.2)

/-- Dictionary assignment `d[l] = M`: replace in place if the key exists,
otherwise append. -/
def insertLayer (d : LayerDict) (l : String) (M : Mat) : LayerDict :=
  if (d.find? (fun p => p.1 == l)).isSome then
    d.map (fun p => if p.1 == l then (l, M) else p)
  else
    d ++ [(l, M)]

/-- Embeds `update_GPM(mat_dict, threshold, features)`.  The branch is on
`if not features:` — the whole dictionary being empty — not on the
individual layer.  On the populated branch, a layer of `mat_dict` without a
stored basis raises a KeyError (`features[layer_name]`), modelled as
`Except.error`. -/
def updateGPM (svd : Mat → Mat × List ℚ) (mat_dict : LayerDict)
    (threshold : String → ℚ) (features : LayerDict) : Except String LayerDict :=
  if features.isEmpty then
    Except.ok (mat_dict.foldl
      (fun fs p => insertLayer fs p.1 (firstLayerUpdate svd (threshold p.1) p.2))
      features)
  else
    mat_dict.foldlM
      (fun fs p =>
        match lookupLayer fs p.1 with
        | none => Except.error ("KeyError: " ++ p.1)
        | some basis =>
          Except.ok (insertLayer fs p.1 (populatedLayerUpdate svd (threshold p.1) basis p.2)))
      features

theorem runningSumsFrom_lower (xs : List ℚ) : ∀ a : ℚ, (∀ x ∈ xs, 0 ≤ x) →
    ∀ y ∈ runningSumsFrom a xs, a ≤ y := by
  induction xs with
  | nil => intro a _ y hy; simp [runningSumsFrom] at hy
  | cons x xs ih =>
    intro a h y hy
    simp only [runningSumsFrom, List.mem_cons] at hy
    have hx : 0 ≤ x := h x (by simp)
    rcases hy with rfl | hy
    · linarith
    · have := ih (a + x) (fun z hz => h z (by simp [hz])) y hy
      linarith

/-- Characterization of the strict-less-than cumulative count used by the
first-task branch: the partial sum over the counted prefix is still below
the threshold, and one more step (when it exists) reaches it. -/
theorem countLt_runningSums (t : ℚ) : ∀ (L : List ℚ) (a : ℚ), (∀ x ∈ L, 0 ≤ x) → a < t →
    a + (L.take ((runningSumsFrom a L).countP (fun q => decide (q < t)))).sum < t ∧
      ((runningSumsFrom a L).countP (fun q => decide (q < t)) < L.length →
        t ≤ a + (L.take ((runningSumsFrom a L).countP (fun q => decide (q < t)) + 1)).sum) ∧
      (runningSumsFrom a L).countP (fun q => decide (q < t)) ≤ L.length := by
  intro L
  induction L with
  | nil =>
    intro a _ ha
    refine ⟨by simpa [runningSumsFrom] using ha, by simp [runningSumsFrom], by simp [runningSumsFrom]⟩
  | cons x xs ih =>
    intro a h ha
    have hx : 0 ≤ x := h x (by simp)
    by_cases hxa : a + x < t
    · obtain ⟨ih1, ih2, ih3⟩ := ih (a + x) (fun z hz => h z (by simp [hz])) hxa
      have hcount : (runningSumsFrom a (x :: xs)).countP (fun q => decide (q < t)) =
          (runningSumsFrom (a + x) xs).countP (fun q => decide (q < t)) + 1 := by
        simp [runningSumsFrom, List.countP_cons, hxa]
      refine ⟨?_, ?_, ?_⟩
      · rw [hcount]
        simpa [add_assoc] using ih1
      · rw [hcount]
        intro hlt
        simp only [List.length_cons] at hlt
        have := ih2 (by omega)
        simpa [add_assoc] using this
      · rw [hcount]; simp; omega
    · have hzero : (runningSumsFrom (a + x) xs).countP (fun q => decide (q < t)) = 0 := by
        rw [List.countP_eq_zero]
        intro y hy
        have hay : a + x ≤ y := runningSumsFrom_lower xs (a + x)
          (fun z hz => h z (by simp [hz])) y hy
        simp only [decide_eq_true_eq]
        push_neg at hxa
        linarith
      have hcount : (runningSumsFrom a (x :: xs)).countP (fun q => decide (q < t)) = 0 := by
        simp [runningSumsFrom, List.countP_cons, hxa, hzero]
      refine ⟨by simpa [hcount] using ha, ?_, by simp [hcount]⟩
      intro _
      rw [hcount]
      push_neg at hxa
      simpa using hxa

/-- The cumulative energy ratio of the first `k` singular values: the sum
of their squares over the total energy. -/
def cumEnergyRatio (S : List ℚ) (k : ℕ) : ℚ :=
  ((S.take k).map (fun s => s * s)).sum / sumSq S

theorem sum_map_div (l : List ℚ) (f : ℚ → ℚ) (T : ℚ) :
    (l.map (fun s => f s / T)).sum = (l.map f).sum / T := by
  induction l with
  | nil => simp
  | cons x xs ih => simp [ih, add_div]

/-- C3: on the first (empty-dictionary) update of a layer, with threshold
`t ∈ (0,1)` and a representation matrix of positive total singular energy,
the retained column count `r = retainCount S t` satisfies: the cumulative
squared-singular-value energy ratio of the first `r` singular values is
strictly below `t`; when an `(r+1)`-th singular value exists the cumulative
ratio of the first `r+1` is at least `t`; the stored basis is exactly the
first `r` columns of `U`; and `r = 0` leaves an empty basis without error. -/
theorem claim_C3 (svd : Mat → Mat × List ℚ) (M U : Mat) (S : List ℚ) (t : ℚ)
    (hsvd : svd M = (U, S)) (ht0 : 0 < t) (ht1 : t < 1) (htot : 0 < sumSq S) :
    cumEnergyRatio S (retainCount S t) < t ∧
      (retainCount S t < S.length → t ≤ cumEnergyRatio S (retainCount S t + 1)) ∧
      firstLayerUpdate svd t M = U.take (retainCount S t) ∧
      (retainCount S t = 0 → firstLayerUpdate svd t M = []) := by
  have hnn : ∀ x ∈ svalRatios S (sumSq S), 0 ≤ x := by
    intro x hx
    simp only [svalRatios, List.mem_map] at hx
    obtain ⟨s, _, rfl⟩ := hx
    exact div_nonneg (mul_self_nonneg s) htot.le
  obtain ⟨h1, h2, h3⟩ := countLt_runningSums t (svalRatios S (sumSq S)) 0 hnn ht0
  have hlen : (svalRatios S (sumSq S)).length = S.length := by simp [svalRatios]
  have htake : ∀ k : ℕ, ((svalRatios S (sumSq S)).take k).sum = cumEnergyRatio S k := by
    intro k
    rw [cumEnergyRatio, svalRatios, ← List.map_take, sum_map_div]
  have hrc : ∀ k : ℕ, (runningSumsFrom 0 (svalRatios S (sumSq S))).countP
      (fun q => decide (q < t)) = retainCount S t := by
    intro _; rfl
  refine ⟨?_, ?_, ?_, ?_⟩
  · have h1x := h1
    rw [htake] at h1x
    simpa [retainCount, runningSums] using h1x
  · intro hr
    have hr2 : (runningSumsFrom 0 (svalRatios S (sumSq S))).countP
        (fun q => decide (q < t)) < (svalRatios S (sumSq S)).length := by
      rw [hrc 0, hlen]; exact hr
    have h2x := h2 (by simpa [runningSums] using hr2)
    rw [htake] at h2x
    simpa [retainCount, runningSums] using h2x
  · simp [firstLayerUpdate, hsvd]
  · intro hr0
    simp [firstLayerUpdate, hsvd, hr0]

theorem claim_C3_witness :
    (fun _ : Mat => (([[(1 : ℚ)]] : Mat), [(1 : ℚ)])) [[(1 : ℚ)]] = ([[(1 : ℚ)]], [(1 : ℚ)]) ∧
      (0 : ℚ) < 1 / 2 ∧ (1 : ℚ) / 2 < 1 ∧ 0 < sumSq [(1 : ℚ)] ∧
      (cumEnergyRatio [(1 : ℚ)] (retainCount [(1 : ℚ)] (1 / 2)) < 1 / 2 ∧
        (retainCount [(1 : ℚ)] (1 / 2) < ([(1 : ℚ)] : List ℚ).length →
          1 / 2 ≤ cumEnergyRatio [(1 : ℚ)] (retainCount [(1 : ℚ)] (1 / 2) + 1)) ∧
        firstLayerUpdate (fun _ : Mat => (([[(1 : ℚ)]] : Mat), [(1 : ℚ)])) (1 / 2) [[(1 : ℚ)]] =
          ([[(1 : ℚ)]] : Mat).take (retainCount [(1 : ℚ)] (1 / 2)) ∧
        (retainCount [(1 : ℚ)] (1 / 2) = 0 →
          firstLayerUpdate (fun _ : Mat => (([[(1 : ℚ)]] : Mat), [(1 : ℚ)])) (1 / 2) [[(1 : ℚ)]] =
            [])) :=
  ⟨rfl, by norm_num, by norm_num, by norm_num [sumSq],
    claim_C3 (fun _ : Mat => (([[(1 : ℚ)]] : Mat), [(1 : ℚ)])) [[(1 : ℚ)]] [[(1 : ℚ)]]
      [(1 : ℚ)] (1 / 2) rfl (by norm_num) (by norm_num) (by norm_num [sumSq])⟩

theorem subVec_zero (v : Vec) : subVec v (zeroVec v.length) = v := by
  induction v with
  | nil => rfl
  | cons x xs ih => simpa [subVec, zeroVec, List.zipWith] using ih

theorem projectOut_nil (v : Vec) : projectOut [] v = v := by
  simp only [projectOut, List.map_nil, sumVecs, List.foldr_nil]
  exact subVec_zero v

theorem sumSq_nonneg (S : List ℚ) : 0 ≤ sumSq S := by
  rw [sumSq]
  induction S with
  | nil => simp
  | cons s ss ih =>
    simp only [List.map_cons, List.sum_cons]
    have := mul_self_nonneg s
    linarith

theorem svalRatios_nonneg (S : List ℚ) (x : ℚ) (hx : x ∈ svalRatios S (sumSq S)) :
    0 ≤ x := by
  simp only [svalRatios, List.mem_map] at hx
  obtain ⟨s, _, rfl⟩ := hx
  exact div_nonneg (mul_self_nonneg s) (sumSq_nonneg S)

/-- Under a threshold of zero nothing is ever retained on the first-task
branch: every cumulative ratio is nonnegative, so none is strictly below 0. -/
theorem retainCount_zero (S : List ℚ) : retainCount S 0 = 0 := by
  rw [retainCount, List.countP_eq_zero]
  intro q hq
  have h0 : (0 : ℚ) ≤ q := by
    have := runningSumsFrom_lower (svalRatios S (sumSq S)) 0
      (fun x hx => svalRatios_nonneg S x hx) q (by simpa [runningSums] using hq)
    linarith
  simpa using not_lt.mpr h0

theorem firstLayerUpdate_zero (svd : Mat → Mat × List ℚ) (M : Mat) :
    firstLayerUpdate svd 0 M = [] := by
  simp [firstLayerUpdate, retainCount_zero]

theorem map_projectOut_nil (M : Mat) : M.map (projectOut []) = M := by
  simpa using List.map_congr_left (fun v _ => projectOut_nil v)

theorem popR_nil_zero (svd : Mat → Mat × List ℚ) (M : Mat) :
    popR svd 0 [] M = 0 := by
  rw [popR, map_projectOut_nil, sub_self, zero_div]
  cases svalRatios (svd M).2 (sumSq (svd M).2) with
  | nil => rfl
  | cons x xs => simp [greedyCount]

theorem populatedLayerUpdate_nil_zero (svd : Mat → Mat × List ℚ) (M : Mat) :
    populatedLayerUpdate svd 0 [] M = [] := by
  rw [populatedLayerUpdate, if_pos (popR_nil_zero svd M)]

/-- C9: with a per-layer threshold of 0 the basis update is idempotent: the
first `update_GPM` call on a layer retains r = 0 and stores an empty basis,
and every repeated call on the same matrix (now on the populated branch,
since the feature dictionary is non-empty) adds no residual direction and
leaves the basis empty, with no error. -/
theorem claim_C9 (svd : Mat → Mat × List ℚ) (M : Mat) (l : String) :
    updateGPM svd [(l, M)] (fun _ => 0) [] = Except.ok [(l, ([] : Mat))] ∧
      updateGPM svd [(l, M)] (fun _ => 0) [(l, ([] : Mat))] =
        Except.ok [(l, ([] : Mat))] := by
  constructor
  · simp [updateGPM, insertLayer, firstLayerUpdate_zero]
  · simp [updateGPM, lookupLayer, insertLayer, populatedLayerUpdate_nil_zero,
      List.foldlM, Except.bind]

theorem find?_mapAssign (k l : String) (M : Mat) (h : k ≠ l) (d : LayerDict) :
    (d.map (fun p => if p.1 == k then (k, M) else p)).find? (fun p => p.1 == l) =
      d.find? (fun p => p.1 == l) := by
  induction d with
  | nil => rfl
  | cons p ps ih =>
    by_cases hp : p.1 = k
    · simp only [List.map_cons, hp, beq_self_eq_true, if_true]
      rw [List.find?_cons_of_neg _ (by simpa using h),
        List.find?_cons_of_neg _ (by simp [hp, h]), ih]
    · have hbk : (p.1 == k) = false := by simpa using hp
      simp only [List.map_cons, hbk, Bool.false_eq_true, if_false]
      by_cases hl : p.1 = l
      · rw [List.find?_cons_of_pos _ (by simpa using hl),
          List.find?_cons_of_pos _ (by simpa using hl)]
      · rw [List.find?_cons_of_neg _ (by simpa using hl),
          List.find?_cons_of_neg _ (by simpa using hl), ih]

/-- Dictionary assignment at one key does not change lookups at a different
key. -/
theorem lookupLayer_insert_ne (d : LayerDict) (k l : String) (M : Mat) (h : k ≠ l) :
    lookupLayer (insertLayer d k M) l = lookupLayer d l := by
  rw [insertLayer]
  by_cases hs : (d.find? (fun p => p.1 == k)).isSome
  · rw [if_pos hs, lookupLayer, lookupLayer, find?_mapAssign k l M h d]
  · rw [if_neg hs, lookupLayer, lookupLayer, List.find?_append]
    have h2 : (([(k, M)] : LayerDict).find? (fun p => p.1 == l)) = none := by
      simp [h]
    rw [h2, Option.or_none]

/-- On the populated branch, reaching a layer of the matrix dictionary that
has no stored basis produces a KeyError, whatever came before it. -/
theorem popFold_error (svd : Mat → Mat × List ℚ) (t : String → ℚ) :
    ∀ (md : LayerDict) (fs : LayerDict) (l : String),
      l ∈ md.map Prod.fst → lookupLayer fs l = none →
      ∃ e, (md.foldlM
        (fun fs p =>
          match lookupLayer fs p.1 with
          | none => Except.error ("KeyError: " ++ p.1)
          | some basis =>
            Except.ok (insertLayer fs p.1 (populatedLayerUpdate svd (t p.1) basis p.2)))
        fs : Except String LayerDict) = Except.error e := by
  intro md
  induction md with
  | nil => intro fs l hl _; simp at hl
  | cons p ps ih =>
    intro fs l hl hnone
    rw [List.foldlM_cons]
    by_cases hpl : p.1 = l
    · rw [hpl, hnone]
      exact ⟨"KeyError: " ++ l, rfl⟩
    · cases hfind : lookupLayer fs p.1 with
      | none => exact ⟨"KeyError: " ++ p.1, rfl⟩
      | some basis =>
        have hl' : l ∈ ps.map Prod.fst := by
          simp only [List.map_cons, List.mem_cons] at hl
          tauto
        have hnone' :
            lookupLayer (insertLayer fs p.1 (populatedLayerUpdate svd (t p.1) basis p.2)) l =
              none := by
          rw [lookupLayer_insert_ne _ _ _ _ hpl]
          exact hnone
        simpa using ih _ l hl' hnone'

/-- C5 as amended: the branch in `update_GPM` is on the whole feature
dictionary being empty, not on the individual layer.  When the dictionary
is empty every layer takes the first-task path and the call succeeds; when
the dictionary is non-empty every layer of the matrix dictionary takes the
populated path, and a layer without a stored basis makes the call fail with
a KeyError instead of receiving a first-task basis. -/
theorem claim_C5 (svd : Mat → Mat × List ℚ) (md : LayerDict) (t : String → ℚ)
    (fs : LayerDict) :
    (fs = [] → ∃ r, updateGPM svd md t fs = Except.ok r) ∧
      (fs ≠ [] → ∀ l, l ∈ md.map Prod.fst → lookupLayer fs l = none →
        ∃ e, updateGPM svd md t fs = Except.error e) := by
  constructor
  · intro hfs
    subst hfs
    exact ⟨_, by rw [updateGPM, if_pos (by simp)]⟩
  · intro hfs l hl hnone
    rw [updateGPM, if_neg (by simpa using hfs)]
    exact popFold_error svd t md fs l hl hnone

theorem claim_C5_witness :
    (([("a", ([[(1 : ℚ)]] : Mat))] : LayerDict) ≠ [] ∧
        "b" ∈ ([("b", ([[(1 : ℚ)]] : Mat))] : LayerDict).map Prod.fst ∧
        lookupLayer [("a", ([[(1 : ℚ)]] : Mat))] "b" = none) ∧
      ∃ e, updateGPM (fun X => (X, [])) [("b", ([[(1 : ℚ)]] : Mat))] (fun _ => 1 / 2)
        [("a", ([[(1 : ℚ)]] : Mat))] = Except.error e :=
  ⟨⟨by simp, by simp, by simp [lookupLayer]⟩,
    (claim_C5 (fun X => (X, [])) [("b", ([[(1 : ℚ)]] : Mat))] (fun _ => 1 / 2)
      [("a", ([[(1 : ℚ)]] : Mat))]).2 (by simp) "b" (by simp) (by simp [lookupLayer])⟩

/-- C5 counterexample to the claim as stated: with a stored basis for layer
`a` only, an update supplying a matrix for the basis-free layer `b` does
not take the first-task path for `b` — it fails with a KeyError, because
the branch tests whether the whole dictionary is empty. -/
theorem claim_C5_cex :
    ([("a", ([[(1 : ℚ)]] : Mat))] : LayerDict) ≠ [] ∧
      lookupLayer [("a", ([[(1 : ℚ)]] : Mat))] "b" = none ∧
      updateGPM (fun X => (X, [])) [("b", ([[(1 : ℚ)]] : Mat))] (fun _ => 1 / 2)
        [("a", ([[(1 : ℚ)]] : Mat))] = Except.error ("KeyError: " ++ "b") := by
  refine ⟨by simp, by simp [lookupLayer], ?_⟩
  rw [updateGPM, if_neg (by simp)]
  simp [List.foldlM, lookupLayer]

/-! ## Basis-shape invariants across update calls (C8) -/

/-- All columns of the matrix have length `m` (the layer's row dimension). -/
def WfMat (m : ℕ) (M : Mat) : Prop := ∀ c ∈ M, c.length = m

/-- Shape contract of `torch.linalg.svd(·, full_matrices=False)`: on an
input with `m` rows, `U` has columns of length `m` and at most `m` of them
(`U` is m × min(m, n)). -/
def SvdShapeOK (svd : Mat → Mat × List ℚ) : Prop :=
  ∀ (m : ℕ) (M : Mat), WfMat m M → WfMat m (svd M).1 ∧ (svd M).1.length ≤ m

theorem sumVecs_length (n : ℕ) (vs : List Vec) (h : ∀ v ∈ vs, v.length = n) :
    (sumVecs n vs).length = n := by
  induction vs with
  | nil => simp [sumVecs, zeroVec]
  | cons v vs ih =>
    have hv : v.length = n := h v (by simp)
    have ih' := ih (fun w hw => h w (by simp [hw]))
    simp only [sumVecs, List.foldr_cons] at ih' ⊢
    simp [addVec, hv, ih']

theorem projectOut_length (m : ℕ) (basis : Mat) (v : Vec)
    (hb : WfMat m basis) (hv : v.length = m) :
    (projectOut basis v).length = m := by
  have hlen : (sumVecs v.length (basis.map (fun b => smulVec (dotVec b v) b))).length =
      v.length := by
    apply sumVecs_length
    intro w hw
    simp only [List.mem_map] at hw
    obtain ⟨b, hbmem, rfl⟩ := hw
    simp [smulVec, hb b hbmem, hv]
  rw [projectOut, subVec, List.length_zipWith, hlen, hv, Nat.min_self]

theorem wf_actHat (m : ℕ) (basis M : Mat) (hb : WfMat m basis) (hM : WfMat m M) :
    WfMat m (M.map (projectOut basis)) := by
  intro c hc
  simp only [List.mem_map] at hc
  obtain ⟨v, hv, rfl⟩ := hc
  exact projectOut_length m basis v hb (hM v hv)

theorem wf_append (m : ℕ) (A B : Mat) (hA : WfMat m A) (hB : WfMat m B) :
    WfMat m (A ++ B) := by
  intro c hc
  rcases List.mem_append.mp hc with h | h
  · exact hA c h
  · exact hB c h

theorem wf_take (m : ℕ) (A : Mat) (k : ℕ) (hA : WfMat m A) : WfMat m (A.take k) :=
  fun c hc => hA c (List.mem_of_mem_take hc)

theorem numRows_of_wf (m : ℕ) (A : Mat) (hA : WfMat m A) (hne : A ≠ []) :
    numRows A = m := by
  cases A with
  | nil => exact absurd rfl hne
  | cons c cs => exact hA c (by simp)

/-- One populated-branch update preserves well-formedness, never shrinks
the basis, and keeps the column count at most the row count. -/
theorem populated_step (svd : Mat → Mat × List ℚ) (t : ℚ) (m : ℕ) (basis M : Mat)
    (hsvd : SvdShapeOK svd) (hb : WfMat m basis) (hbl : basis.length ≤ m)
    (hM : WfMat m M) :
    WfMat m (populatedLayerUpdate svd t basis M) ∧
      basis.length ≤ (populatedLayerUpdate svd t basis M).length ∧
      (populatedLayerUpdate svd t basis M).length ≤ m := by
  rw [populatedLayerUpdate]
  by_cases hr : popR svd t basis M = 0
  · rw [if_pos hr]
    exact ⟨hb, le_refl _, hbl⟩
  · rw [if_neg hr]
    obtain ⟨hU, hUl⟩ := hsvd m (M.map (projectOut basis)) (wf_actHat m basis M hb hM)
    have hUi : WfMat m (basis ++ ((svd (M.map (projectOut basis))).1).take
        (popR svd t basis M)) :=
      wf_append m _ _ hb (wf_take m _ _ hU)
    rw [truncCols]
    by_cases hne : (basis ++ ((svd (M.map (projectOut basis))).1).take
        (popR svd t basis M)) = []
    · have hb0 : basis = [] := by
        rcases List.append_eq_nil.mp hne with ⟨h1, _⟩
        exact h1
      rw [hne]
      simp [numRows, WfMat, hb0]
    · have hnr : numRows (basis ++ ((svd (M.map (projectOut basis))).1).take
          (popR svd t basis M)) = m := numRows_of_wf m _ hUi hne
      rw [hnr]
      by_cases hlen : m < (basis ++ ((svd (M.map (projectOut basis))).1).take
          (popR svd t basis M)).length
      · rw [if_pos hlen]
        refine ⟨wf_take m _ _ hUi, ?_, by simp⟩
        simp only [List.length_take]
        omega
      · rw [if_neg hlen]
        refine ⟨hUi, by simp, by omega⟩

theorem first_step (svd : Mat → Mat × List ℚ) (t : ℚ) (m : ℕ) (M0 : Mat)
    (hsvd : SvdShapeOK svd) (h0 : WfMat m M0) :
    WfMat m (firstLayerUpdate svd t M0) ∧ (firstLayerUpdate svd t M0).length ≤ m := by
  obtain ⟨hU, hUl⟩ := hsvd m M0 h0
  refine ⟨wf_take m _ _ hU, ?_⟩
  rw [firstLayerUpdate, List.length_take]
  omega

theorem scanl_head? (f : Mat → Mat → Mat) (b : Mat) (Ms : List Mat) :
    (Ms.scanl f b).head? = some b := by
  cases Ms <;> simp [List.scanl]

/-- The per-layer basis invariant along a whole sequence of populated-branch
updates: every intermediate basis has column count at most the row count,
and the column count never decreases from one call to the next. -/
theorem scanl_basis_inv (svd : Mat → Mat × List ℚ) (t : ℚ) (m : ℕ)
    (hsvd : SvdShapeOK svd) :
    ∀ (Ms : List Mat) (b : Mat), WfMat m b → b.length ≤ m → (∀ M ∈ Ms, WfMat m M) →
      (∀ x ∈ Ms.scanl (populatedLayerUpdate svd t) b, x.length ≤ m) ∧
        List.Chain' (fun x y => x.length ≤ y.length)
          (Ms.scanl (populatedLayerUpdate svd t) b) := by
  intro Ms
  induction Ms with
  | nil =>
    intro b hb hbl _
    constructor
    · intro x hx
      simp only [List.scanl, List.mem_singleton] at hx
      simpa [hx] using hbl
    · simp [List.scanl]
  | cons M Ms ih =>
    intro b hb hbl hMs
    have hM : WfMat m M := hMs M (by simp)
    obtain ⟨hwf', hmono, hle'⟩ := populated_step svd t m b M hsvd hb hbl hM
    obtain ⟨ih1, ih2⟩ := ih (populatedLayerUpdate svd t b M) hwf' hle'
      (fun N hN => hMs N (by simp [hN]))
    constructor
    · intro x hx
      simp only [List.scanl, List.mem_cons] at hx
      rcases hx with rfl | hx
      · exact hbl
      · exact ih1 x hx
    · rw [List.scanl]
      rw [List.chain'_cons']
      refine ⟨?_, ih2⟩
      intro y hy
      rw [scanl_head? _ _ Ms] at hy
      cases hy
      exact hmono

/-- C8: starting from the first-task update and applying any sequence of
populated-branch updates with matrices of row dimension `m` (and an SVD
oracle meeting the reduced-SVD shape contract), every stored basis along
the way has column count at most `m`, and the column count never decreases
from one call to the next. -/
theorem claim_C8 (svd : Mat → Mat × List ℚ) (t : ℚ) (m : ℕ) (M0 : Mat) (Ms : List Mat)
    (hsvd : SvdShapeOK svd) (h0 : WfMat m M0) (hMs : ∀ M ∈ Ms, WfMat m M) :
    (∀ bs ∈ Ms.scanl (populatedLayerUpdate svd t) (firstLayerUpdate svd t M0),
        bs.length ≤ m) ∧
      List.Chain' (fun x y => x.length ≤ y.length)
        (Ms.scanl (populatedLayerUpdate svd t) (firstLayerUpdate svd t M0)) := by
  obtain ⟨hwf0, hl0⟩ := first_step svd t m M0 hsvd h0
  exact scanl_basis_inv svd t m hsvd Ms (firstLayerUpdate svd t M0) hwf0 hl0 hMs

theorem claim_C8_witness :
    SvdShapeOK (fun _ => (([] : Mat), ([] : List ℚ))) ∧ WfMat 1 [[(5 : ℚ)]] ∧
      (∀ M ∈ [[[(7 : ℚ)]]], WfMat 1 M) ∧
      ((∀ bs ∈ ([[[(7 : ℚ)]]] : List Mat).scanl
          (populatedLayerUpdate (fun _ => (([] : Mat), ([] : List ℚ))) (1 / 2))
          (firstLayerUpdate (fun _ => (([] : Mat), ([] : List ℚ))) (1 / 2) [[(5 : ℚ)]]),
          bs.length ≤ 1) ∧
        List.Chain' (fun x y => x.length ≤ y.length)
          (([[[(7 : ℚ)]]] : List Mat).scanl
            (populatedLayerUpdate (fun _ => (([] : Mat), ([] : List ℚ))) (1 / 2))
            (firstLayerUpdate (fun _ => (([] : Mat), ([] : List ℚ))) (1 / 2) [[(5 : ℚ)]]))) :=
  ⟨fun m M _ => ⟨fun c hc => by simp at hc, Nat.zero_le m⟩,
    fun c hc => by simp at hc; simp [hc],
    fun M hM => by
      simp at hM
      intro c hc
      simp [hM] at hc
      simp [hc],
    claim_C8 (fun _ => (([] : Mat), ([] : List ℚ))) (1 / 2) 1 [[(5 : ℚ)]] [[[(7 : ℚ)]]]
      (fun m M _ => ⟨fun c hc => by simp at hc, Nat.zero_le m⟩)
      (fun c hc => by simp at hc; simp [hc])
      (fun M hM => by
        simp at hM
        intro c hc
        simp [hM] at hc
        simp [hc])⟩

/-! ## Activation capture (FeatureMap.set_activation_for_layer, src/GPM.py)

Only the shapes of the captured tensors matter for the claims below, so a
tensor is modelled by its shape (list of dimension sizes).  Python
attribute and dictionary failures become `Except.error`. -/

/-- A hooked module: convolutional modules carry a `kernel_size` attribute,
other modules (e.g. `nn.Linear`) do not. -/
structure GModule where
  kernelSize : Option (ℕ × ℕ)

/-- A stored representative input size: a single feature dimensionality for
a linear layer, a spatial pair for a convolutional layer (as stored by
`determine_conv_output_sizes`). -/
inductive InSize where
  | linear : ℕ → InSize
  | conv : ℕ × ℕ → InSize
deriving DecidableEq, Repr

/-- The fragment of `FeatureMap` state that `set_activation_for_layer`
reads and writes. -/
structure FeatureMap where
  layer_names : List String
  modules : List (String × GModule)
  act : List (String × List ℕ)
  input_sizes : List (String × InSize)
  getting_conv_size : Bool

/-- `compute_conv_output_size` with the default stride, padding and
dilation: each output dimension is
`int(floor(input + 2*padding - dilation*(kernel - 1) - 1))`, i.e.
`input - kernel` — note the absence of the usual `+ 1`. -/
def compute_conv_output_size (input_size kernel_size : ℤ × ℤ)
    (padding dilation : ℤ × ℤ) : ℤ × ℤ :=
  (input_size.1 + 2 * padding.1 - dilation.1 * (kernel_size.1 - 1) - 1,
   input_size.2 + 2 * padding.2 - dilation.2 * (kernel_size.2 - 1) - 1)

/-- `self.get_kernel_size(name)`: module dictionary lookup followed by the
`kernel_size` attribute access, which raises AttributeError on a module
without a kernel. -/
def get_kernel_size (fm : FeatureMap) (name : String) : Except String (ℕ × ℕ) :=
  match (fm.modules.find? (fun p => p.1 == name)).map (fun p => p.2) with
  | none => Except.error ("KeyError: " ++ name)
  | some mo =>
    match mo.kernelSize with
    | none => Except.error "AttributeError: kernel_size"
    | some ks => Except.ok ks

/-- `self.get_input_size(name)`: input-size dictionary lookup. -/
def get_input_size (fm : FeatureMap) (name : String) : Except String InSize :=
  match (fm.input_sizes.find? (fun p => p.1 == name)).map (fun p => p.2) with
  | none => Except.error ("KeyError: " ++ name)
  | some s => Except.ok s

/-- Applying `compute_conv_output_size` to a stored input size: a linear
layer stores a bare integer, which Python cannot subscript. -/
def conv_out_of_insize (isz : InSize) (ks : ℕ × ℕ) : Except String (ℤ × ℤ) :=
  match isz with
  | InSize.linear _ => Except.error "TypeError: int is not subscriptable"
  | InSize.conv (w, h) =>
    Except.ok (compute_conv_output_size ((w : ℤ), (h : ℤ)) ((ks.1 : ℤ), (ks.2 : ℤ))
      (0, 0) (1, 1))

/-- Shape behaviour of `F.adaptive_avg_pool2d`: requires a 3-D or 4-D input
and positive output sizes; replaces the two trailing spatial dimensions. -/
def adaptive_avg_pool2d (shape : List ℕ) (out : ℤ × ℤ) : Except String (List ℕ) :=
  if out.1 ≤ 0 ∨ out.2 ≤ 0 then
    Except.error "RuntimeError: adaptive pool output size must be positive"
  else
    match shape with
    | [b, c, _, _] => Except.ok [b, c, out.1.toNat, out.2.toNat]
    | [c, _, _] => Except.ok [c, out.1.toNat, out.2.toNat]
    | _ => Except.error "RuntimeError: adaptive_avg_pool2d expects 3D or 4D input"

/-- `torch.cat((prev, new), dim=0)`: shapes must agree except in the batch
dimension, which adds. -/
def concatDim0 (a b : List ℕ) : Except String (List ℕ) :=
  match a, b with
  | x :: xs, y :: ys =>
    if xs = ys then Except.ok ((x + y) :: xs)
    else Except.error "RuntimeError: cat shape mismatch"
  | _, _ => Except.error "RuntimeError: cat on zero-dim tensor"

/-- Dictionary assignment for the activation buffer. -/
def setAct (d : List (String × List ℕ)) (l : String) (v : List ℕ) :
    List (String × List ℕ) :=
  if (d.find? (fun p => p.1 == l)).isSome then
    d.map (fun p => if p.1 == l then (l, v) else p)
  else
    d ++ [(l, v)]

/-- Embeds `FeatureMap.set_activation_for_layer` (shape level).  After the
membership assert and the zero-dimension check, the raw-capture branch
stores the input as-is; the accumulation branch unconditionally treats the
layer as convolutional: it evaluates `self.get_input_size(...)` and
`self.get_kernel_size(...)` (in Python's left-to-right argument order),
calls `compute_conv_output_size`, average-pools the input and concatenates
the result onto the buffer. -/
def set_activation_for_layer (fm : FeatureMap) (name : String) (input : List ℕ) :
    Except String FeatureMap :=
  if ¬ (name ∈ fm.layer_names) then
    Except.error ("AssertionError: Module " ++ name ++ " not in layers")
  else if 0 ∈ input then
    Except.error ("Empty dimension in " ++ name)
  else if fm.getting_conv_size then
    Except.ok { fm with act := setAct fm.act name input }
  else
    match get_input_size fm name with
    | Except.error e => Except.error e
    | Except.ok isz =>
      match get_kernel_size fm name with
      | Except.error e => Except.error e
      | Except.ok ks =>
        match conv_out_of_insize isz ks with
        | Except.error e => Except.error e
        | Except.ok co =>
          match adaptive_avg_pool2d input co with
          | Except.error e => Except.error e
          | Except.ok pooled =>
            match (fm.act.find? (fun p => p.1 == name)).map (fun p => p.2) with
            | none => Except.ok { fm with act := setAct fm.act name pooled }
            | some prev =>
              match concatDim0 prev pooled with
              | Except.error e => Except.error e
              | Except.ok newAct => Except.ok { fm with act := setAct fm.act name newAct }

/-- C7 (failing input): in accumulation mode, a non-convolutional layer —
here a linear layer `fc` with a recorded feature dimensionality of 16 and a
module without a `kernel_size` attribute — receiving a raw (4, 16) input is
not concatenated unchanged: the capture fails with an AttributeError from
the unconditional `self.get_kernel_size(...)` call. -/
theorem claim_C7 :
    set_activation_for_layer
      { layer_names := ["fc"], modules := [("fc", { kernelSize := none })],
        act := [], input_sizes := [("fc", InSize.linear 16)],
        getting_conv_size := false }
      "fc" [4, 16] = Except.error "AttributeError: kernel_size" := by
  rfl

/-! ## Convolutional representation matrix (get_representation_matrix, src/GPM.py)

The captured activation buffer of a convolutional layer is a function
`act : sample → channel → x → y → ℚ`.  The source allocates a zero matrix
of `kernel[0]*kernel[1]*in_channel` rows and
`conv_width*conv_height*batch_size` columns, then walks
`kk in range(batch_size)`, `w_index in range(conv_width - kernel[0])`,
`h_index in range(conv_height - kernel[1])`, writing the flattened patch
`act[kk, :, w_index:kernel[0]+w_index, h_index:kernel[1]+h_index]` into
column `k` and incrementing `k`. -/

/-- One flattened patch column, in C-order (channel slowest, then the first
spatial index, then the second). -/
def patchColumn (act : ℕ → ℕ → ℕ → ℕ → ℚ) (C kh kw kk w h : ℕ) : Vec :=
  (List.range C).flatMap (fun c =>
    (List.range kh).flatMap (fun i =>
      (List.range kw).map (fun j => act kk c (w + i) (h + j))))

/-- The loop indices `(kk, w_index, h_index)` in iteration order. -/
def loopIndices (B nw nh : ℕ) : List (ℕ × ℕ × ℕ) :=
  (List.range B).flatMap (fun kk =>
    (List.range nw).flatMap (fun w =>
      (List.range nh).map (fun h => (kk, w, h))))

/-- Writing a list of columns into consecutive positions of a matrix,
starting at column `k` (the `mat[:, k] = …; k += 1` loop body). -/
def writeCols (f : ℕ × ℕ × ℕ → Vec) : Mat → ℕ → List (ℕ × ℕ × ℕ) → Mat
  | mat, _, [] => mat
  | mat, k, tr :: ts => writeCols f (mat.set k (f tr)) (k + 1) ts

/-- Embeds the convolutional branch of `get_representation_matrix` for one
layer: input size `(W, H)`, kernel `(kh, kw)`, `C` input channels, batch
budget `B`. -/
def conv_representation_matrix (act : ℕ → ℕ → ℕ → ℕ → ℚ)
    (B C W H kh kw : ℕ) : Mat :=
  writeCols (fun tr => patchColumn act C kh kw tr.1 tr.2.1 tr.2.2)
    (List.replicate
      (((compute_conv_output_size ((W : ℤ), (H : ℤ)) ((kh : ℤ), (kw : ℤ)) (0, 0) (1, 1)).1.toNat) *
        ((compute_conv_output_size ((W : ℤ), (H : ℤ)) ((kh : ℤ), (kw : ℤ)) (0, 0) (1, 1)).2.toNat) * B)
      (zeroVec (kh * kw * C)))
    0
    (loopIndices B
      (((compute_conv_output_size ((W : ℤ), (H : ℤ)) ((kh : ℤ), (kw : ℤ)) (0, 0) (1, 1)).1.toNat) - kh)
      (((compute_conv_output_size ((W : ℤ), (H : ℤ)) ((kh : ℤ), (kw : ℤ)) (0, 0) (1, 1)).2.toNat) - kw))

/-- Modelled from the spec: the column the specification promises at
position `j` of a convolutional representation matrix — the sliding patch
at position `j` in a patch-position-fastest, samples-outer enumeration of
the full `(W-kh) × (H-kw)` grid of stride-1, no-padding patch positions. -/
def specConvColumn (act : ℕ → ℕ → ℕ → ℕ → ℚ) (C kh kw convW convH j : ℕ) : Vec :=
  patchColumn act C kh kw (j / (convW * convH)) ((j % (convW * convH)) / convH)
    ((j % (convW * convH)) % convH)

theorem writeCols_eq (f : ℕ × ℕ × ℕ → Vec) :
    ∀ (ts : List (ℕ × ℕ × ℕ)) (mat : Mat) (k : ℕ), k + ts.length ≤ mat.length →
      writeCols f mat k ts = mat.take k ++ ts.map f ++ mat.drop (k + ts.length) := by
  intro ts
  induction ts with
  | nil =>
    intro mat k _
    simp [writeCols]
  | cons tr ts ih =>
    intro mat k hk
    simp only [List.length_cons] at hk
    have hklt : k < mat.length := by omega
    have hset : mat.set k (f tr) = mat.take k ++ f tr :: mat.drop (k + 1) :=
      List.set_eq_take_cons_drop (f tr) hklt
    have hlen : (mat.take k).length = k := by
      rw [List.length_take]; omega
    rw [writeCols, ih (mat.set k (f tr)) (k + 1) (by simp; omega), hset]
    rw [List.take_append_eq_append_take, List.drop_append_eq_append_drop, hlen]
    rw [List.take_of_length_le (by omega : (mat.take k).length ≤ k + 1)]
    rw [List.drop_of_length_le (by omega : (mat.take k).length ≤ k + 1 + ts.length)]
    have h1 : k + 1 - k = 1 := by omega
    have h2 : k + 1 + ts.length - k = 1 + ts.length := by omega
    rw [h1, h2]
    have h3 : (f tr :: mat.drop (k + 1)).take 1 = [f tr] := by simp
    have h4 : (f tr :: mat.drop (k + 1)).drop (1 + ts.length) =
        mat.drop (k + (ts.length + 1)) := by
      rw [Nat.add_comm 1 ts.length, List.drop_succ_cons, List.drop_drop]
      congr 1
      omega
    rw [h3, h4, List.map_cons]
    simp [List.append_assoc]

theorem flatMap_length_const {α β : Type} (l : List α) (f : α → List β) (n : ℕ)
    (h : ∀ a ∈ l, (f a).length = n) : (l.flatMap f).length = l.length * n := by
  induction l with
  | nil => simp
  | cons a l ih =>
    rw [List.flatMap_cons, List.length_append, h a (by simp),
      ih (fun b hb => h b (by simp [hb])), List.length_cons, Nat.succ_mul,
      Nat.add_comm]

theorem patchColumn_length (act : ℕ → ℕ → ℕ → ℕ → ℚ) (C kh kw kk w h : ℕ) :
    (patchColumn act C kh kw kk w h).length = C * (kh * kw) := by
  rw [patchColumn, flatMap_length_const _ _ (kh * kw), List.length_range]
  intro c _
  rw [flatMap_length_const _ _ kw, List.length_range]
  intro i _
  rw [List.length_map, List.length_range]

theorem loopIndices_length (B nw nh : ℕ) : (loopIndices B nw nh).length = B * (nw * nh) := by
  rw [loopIndices, flatMap_length_const _ _ (nw * nh), List.length_range]
  intro kk _
  rw [flatMap_length_const _ _ nh, List.length_range]
  intro w _
  rw [List.length_map, List.length_range]

theorem writeCols_length (f : ℕ × ℕ × ℕ → Vec) :
    ∀ (ts : List (ℕ × ℕ × ℕ)) (mat : Mat) (k : ℕ),
      (writeCols f mat k ts).length = mat.length := by
  intro ts
  induction ts with
  | nil => intro mat k; rfl
  | cons tr ts ih => intro mat k; rw [writeCols, ih, List.length_set]

theorem convOut_toNat (a b : ℕ) :
    (((a : ℤ) + 2 * 0 - 1 * ((b : ℤ) - 1) - 1)).toNat = a - b := by
  omega

theorem conv_representation_matrix_eq (act : ℕ → ℕ → ℕ → ℕ → ℚ) (B C W H kh kw : ℕ) :
    conv_representation_matrix act B C W H kh kw =
      writeCols (fun tr => patchColumn act C kh kw tr.1 tr.2.1 tr.2.2)
        (List.replicate ((W - kh) * (H - kw) * B) (zeroVec (kh * kw * C))) 0
        (loopIndices B (W - kh - kh) (H - kw - kw)) := by
  have h1 : ((compute_conv_output_size ((W : ℤ), (H : ℤ)) ((kh : ℤ), (kw : ℤ))
      (0, 0) (1, 1)).1).toNat = W - kh := by
    simp only [compute_conv_output_size]
    omega
  have h2 : ((compute_conv_output_size ((W : ℤ), (H : ℤ)) ((kh : ℤ), (kw : ℤ))
      (0, 0) (1, 1)).2).toNat = H - kw := by
    simp only [compute_conv_output_size]
    omega
  rw [conv_representation_matrix, h1, h2]

/-- C2 as amended: the matrix produced by the convolutional branch has
`C*kh*kw` rows and `B*(W-kh)*(H-kw)` columns, but only its first
`B*(W-2kh)*(H-2kw)` columns are sliding-patch columns — over the patch
positions below `W-2kh` / `H-2kw` only, packed consecutively with the
position index fastest and samples outer — and every remaining column is
identically zero (never written by the loop, whose ranges subtract the
kernel size from the already kernel-reduced output size). -/
theorem claim_C2 (act : ℕ → ℕ → ℕ → ℕ → ℚ) (B C W H kh kw : ℕ) :
    (conv_representation_matrix act B C W H kh kw).length =
        B * ((W - kh) * (H - kw)) ∧
      (∀ col ∈ conv_representation_matrix act B C W H kh kw,
        col.length = C * (kh * kw)) ∧
      conv_representation_matrix act B C W H kh kw =
        (loopIndices B (W - kh - kh) (H - kw - kw)).map
          (fun tr => patchColumn act C kh kw tr.1 tr.2.1 tr.2.2) ++
        List.replicate ((W - kh) * (H - kw) * B - B * ((W - kh - kh) * (H - kw - kw)))
          (zeroVec (kh * kw * C)) := by
  have hts : (loopIndices B (W - kh - kh) (H - kw - kw)).length ≤
      (W - kh) * (H - kw) * B := by
    rw [loopIndices_length]
    calc B * ((W - kh - kh) * (H - kw - kw)) ≤ B * ((W - kh) * (H - kw)) :=
          Nat.mul_le_mul_left _ (Nat.mul_le_mul (Nat.sub_le _ _) (Nat.sub_le _ _))
      _ = (W - kh) * (H - kw) * B := Nat.mul_comm _ _
  have hwc := writeCols_eq (fun tr => patchColumn act C kh kw tr.1 tr.2.1 tr.2.2)
    (loopIndices B (W - kh - kh) (H - kw - kw))
    (List.replicate ((W - kh) * (H - kw) * B) (zeroVec (kh * kw * C))) 0
    (by simpa using hts)
  have heq : conv_representation_matrix act B C W H kh kw =
      (loopIndices B (W - kh - kh) (H - kw - kw)).map
        (fun tr => patchColumn act C kh kw tr.1 tr.2.1 tr.2.2) ++
      List.replicate ((W - kh) * (H - kw) * B - B * ((W - kh - kh) * (H - kw - kw)))
        (zeroVec (kh * kw * C)) := by
    rw [conv_representation_matrix_eq, hwc]
    rw [List.take_zero, List.nil_append, Nat.zero_add, List.drop_replicate,
      loopIndices_length]
  refine ⟨?_, ?_, heq⟩
  · rw [conv_representation_matrix_eq, writeCols_length, List.length_replicate]
    exact Nat.mul_comm _ _
  · intro col hc
    rw [heq] at hc
    rcases List.mem_append.mp hc with h | h
    · simp only [List.mem_map] at h
      obtain ⟨tr, _, rfl⟩ := h
      exact patchColumn_length act C kh kw tr.1 tr.2.1 tr.2.2
    · rw [List.eq_of_mem_replicate h, zeroVec, List.length_replicate]
      exact Nat.mul_comm _ _

/-- C2 counterexample to the claim as stated: with B = C = 1, a 4×4 input
and a 1×1 kernel, the all-ones buffer should (per the claim) give the
all-ones patch in every column; but column 4 of the produced matrix is the
zero column — the loop only fills the first `(4-2)*(4-2) = 4` of the
`(4-1)*(4-1) = 9` allocated columns. -/
theorem claim_C2_cex :
    (conv_representation_matrix (fun _ _ _ _ => (1 : ℚ)) 1 1 4 4 1 1)[4]? ≠
      some (specConvColumn (fun _ _ _ _ => (1 : ℚ)) 1 1 1 3 3 4) := by
  have h := (claim_C2 (fun _ _ _ _ => (1 : ℚ)) 1 1 4 4 1 1).2.2
  rw [h]
  have hlen : ((loopIndices 1 (4 - 1 - 1) (4 - 1 - 1)).map
      (fun tr => patchColumn (fun _ _ _ _ => (1 : ℚ)) 1 1 1 tr.1 tr.2.1 tr.2.2)).length = 4 := by
    rw [List.length_map, loopIndices_length]
  rw [List.getElem?_append_right (by rw [hlen])]
  rw [hlen]
  rw [List.getElem?_replicate]
  rw [if_pos (by norm_num)]
  intro hcontra
  have : zeroVec (1 * 1 * 1) = specConvColumn (fun _ _ _ _ => (1 : ℚ)) 1 1 1 3 3 4 :=
    Option.some_injective _ hcontra
  rw [zeroVec, specConvColumn, patchColumn] at this
  norm_num [List.range_succ] at this

theorem claim_C2_witness :
    zeroVec 1 ∈ conv_representation_matrix (fun _ _ _ _ => (0 : ℚ)) 1 1 4 4 1 1 ∧
      (zeroVec 1).length = 1 * (1 * 1) := by
  have h := claim_C2 (fun _ _ _ _ => (0 : ℚ)) 1 1 4 4 1 1
  have hmem : zeroVec 1 ∈ conv_representation_matrix (fun _ _ _ _ => (0 : ℚ)) 1 1 4 4 1 1 := by
    rw [h.2.2]
    refine List.mem_append_right _ ?_
    rw [List.mem_replicate]
    exact ⟨by norm_num, rfl⟩
  exact ⟨hmem, h.2.1 (zeroVec 1) hmem⟩
